import Mathlib

/-!
Shallow embedding of the hyperbolic-texture pipeline of `CircleLimit.cpp`
(class `PoincareTexture`): lattice generation on the hyperboloid model
(`calcH`), projection to the Poincaré disk (`calcP`), geodesic circle
construction (`calcC`), per-point circle-containment counting
(`countCircles`), rasterization (`RenderToTexture`) and the
resolution-change operation (`increaseResolution`).

C++ `float`/`double` arithmetic is modelled by exact real arithmetic: the
source's formulas are transcribed verbatim over `ℝ`.  The `int` loop
counters and texture dimensions are modelled by `ℤ`/`ℕ` as in the source.
-/

namespace CircleLimit

open Real

/-- The framework's `vec2` (two `float` components, modelled as reals). -/
structure Vec2 where
  x : ℝ
  y : ℝ

/-- The framework's `vec3` (three `float` components, modelled as reals). -/
structure Vec3 where
  x : ℝ
  y : ℝ
  z : ℝ

/-- The framework's `vec4`, used as an RGBA color. -/
structure Vec4 where
  x : ℝ
  y : ℝ
  z : ℝ
  w : ℝ

/-- Componentwise addition of `vec2` (framework `operator+`). -/
instance : Add Vec2 := ⟨fun a b => ⟨a.x + b.x, a.y + b.y⟩⟩

/-- Scalar multiplication `vec2 * float` (framework `operator*`). -/
instance : HMul Vec2 ℝ Vec2 := ⟨fun v s => ⟨v.x * s, v.y * s⟩⟩

/-- Componentwise addition of `vec3` (framework `operator+`). -/
instance : Add Vec3 := ⟨fun a b => ⟨a.x + b.x, a.y + b.y, a.z + b.z⟩⟩

/-- Scalar multiplication `vec3 * float` (framework `operator*`). -/
instance : HMul Vec3 ℝ Vec3 := ⟨fun v s => ⟨v.x * s, v.y * s, v.z * s⟩⟩

/-- Framework `dot` on `vec2`. -/
def dot2 (a b : Vec2) : ℝ := a.x * b.x + a.y * b.y

/-- Framework `length` on `vec2`: `sqrtf(dot(v, v))`. -/
noncomputable def length2 (v : Vec2) : ℝ := Real.sqrt (dot2 v v)

/-- Framework `normalize` on `vec2`: `v * (1 / length(v))`. -/
noncomputable def normalize2 (v : Vec2) : Vec2 := v * (1 / length2 v)

/-- `vec2` addition unfolds componentwise. -/
@[simp] theorem add2_def (a b : Vec2) : a + b = ⟨a.x + b.x, a.y + b.y⟩ := rfl

/-- `vec2` scalar multiplication unfolds componentwise. -/
@[simp] theorem mul2_def (v : Vec2) (s : ℝ) : v * s = ⟨v.x * s, v.y * s⟩ := rfl

/-- `vec3` addition unfolds componentwise. -/
@[simp] theorem add3_def (a b : Vec3) :
    a + b = ⟨a.x + b.x, a.y + b.y, a.z + b.z⟩ := rfl

/-- `vec3` scalar multiplication unfolds componentwise. -/
@[simp] theorem mul3_def (v : Vec3) (s : ℝ) :
    v * s = ⟨v.x * s, v.y * s, v.z * s⟩ := rfl

/-- `PoincareTexture::calculateIv`: the i-th generator direction,
`(cosf(i*40*M_PI/180), sinf(i*40*M_PI/180), 0)`. -/
noncomputable def calculateIv (i : ℕ) : Vec3 :=
  ⟨Real.cos ((i * 40) * π / 180), Real.sin ((i * 40) * π / 180), 0⟩

/-- `PoincareTexture::calculateIvv`: `vec3(0,0,1)*sinh(dh) + iv*cosh(dh)`. -/
noncomputable def calculateIvv (iv : Vec3) (dh : ℝ) : Vec3 :=
  (⟨0, 0, 1⟩ : Vec3) * Real.sinh dh + iv * Real.cosh dh

/-- `PoincareTexture::calculateP`: `vec3(0,0,1)*cosh(dh) + ivv*sinh(dh)`. -/
noncomputable def calculateP (ivv : Vec3) (dh : ℝ) : Vec3 :=
  (⟨0, 0, 1⟩ : Vec3) * Real.cosh dh + ivv * Real.sinh dh

/-- `PoincareTexture::calcH`: nested while loops `i = 0..8` (outer) and
`dh = 0.5, 1.5, ..., 5.5` (inner; the float loop `dh = 0.5; while (dh <= 5.5) dh++`
runs exactly six times since these values are exact binary fractions),
pushing `calculateP (calculateIvv iv dh) dh` in direction-major order. -/
noncomputable def calcH : List Vec3 :=
  (List.range 9).flatMap fun i =>
    (List.range 6).map fun j =>
      calculateP (calculateIvv (calculateIv i) (0.5 + j)) (0.5 + j)

/-- `PoincareTexture::calculateOszto`: the divisor `point.z + 1`. -/
def calculateOszto (point : Vec3) : ℝ := point.z + 1

/-- `PoincareTexture::calcP` together with `addPP`: for each hyperbolic point,
push `(point.x / oszto, point.y / oszto)` with `oszto = point.z + 1`. -/
noncomputable def calcP (hyperbolicPoints : List Vec3) : List Vec2 :=
  hyperbolicPoints.map fun p =>
    ⟨p.x / calculateOszto p, p.y / calculateOszto p⟩

/-- `PoincareTexture::calculateR`:
`(1/sqrtf(x^2+y^2) - sqrtf(x^2+y^2)) / 2`. -/
noncomputable def calculateR (point : Vec2) : ℝ :=
  (1 / Real.sqrt (point.x ^ 2 + point.y ^ 2)
    - Real.sqrt (point.x ^ 2 + point.y ^ 2)) / 2

/-- `PoincareTexture::calcC`: for each Poincaré point `q`, with
`r = calculateR q` and `i = normalize q`, push the circle
`(origo.x, origo.y, r)` where `origo = q + i*r`. -/
noncomputable def calcC (poincarePoints : List Vec2) : List Vec3 :=
  poincarePoints.map fun q =>
    ⟨(q + normalize2 q * calculateR q).x,
     (q + normalize2 q * calculateR q).y,
     calculateR q⟩

/-- `PoincareTexture::calculateDistance`:
`sqrtf((point.x-circle.x)^2 + (point.y-circle.y)^2)`. -/
noncomputable def calculateDistance (point : Vec2) (circle : Vec3) : ℝ :=
  Real.sqrt ((point.x - circle.x) ^ 2 + (point.y - circle.y) ^ 2)

/-- `PoincareTexture::countCircles`: count the circles whose
`calculateDistance point circle ≤ circle.z`, iterating the circle list. -/
noncomputable def countCircles (point : Vec2) : List Vec3 → ℕ
  | [] => 0
  | c :: rest =>
      (if calculateDistance point c ≤ c.z then 1 else 0) + countCircles point rest

/-- `PoincareTexture::manyCircles`: forwards to `countCircles`. -/
noncomputable def manyCircles (circles : List Vec3) (point : Vec2) : ℕ :=
  countCircles point circles

/-- `PoincareTexture::math`: the circle set built by
`calcH(); calcP(); calcC();` at construction. -/
noncomputable def math : List Vec3 := calcC (calcP calcH)

/-- `PoincareTexture::RenderToTexture`: the row-major RGBA grid.  The two
`while` loops over `int` counters `yC`/`xC` starting at `0` run
`max(textureHeight,0)` and `max(textureWidth,0)` times respectively; both
pixel axes are normalized by `textureWidth`, and the color priority is:
outside the unit circle black `(0,0,0,1)`, even containment count yellow
`(1,1,0,1)`, odd count blue `(0,0,1,1)`. -/
noncomputable def RenderToTexture (circles : List Vec3)
    (textureWidth textureHeight : ℤ) : List Vec4 :=
  (List.range textureHeight.toNat).flatMap fun (yC : ℕ) =>
    (List.range textureWidth.toNat).map fun (xC : ℕ) =>
      let x : ℝ := (xC : ℝ) / (textureWidth : ℝ) * 2 - 1
      let y : ℝ := (yC : ℝ) / (textureWidth : ℝ) * 2 - 1
      let count := manyCircles circles ⟨x, y⟩
      if Real.sqrt (x ^ 2 + y ^ 2) > 1 then ⟨0, 0, 0, 1⟩
      else if count % 2 = 0 then ⟨1, 1, 0, 1⟩
      else ⟨0, 0, 1, 1⟩

/-- The observable state of a `PoincareTexture` object: its stored
dimensions, its circle set, and the RGBA grid last handed to `create`. -/
structure PoincareTexture where
  width : ℤ
  height : ℤ
  circles : List Vec3
  textureData : List Vec4

/-- The `PoincareTexture(width, height)` constructor: runs `math()` and
`create(width, height, RenderToTexture(width, height))`. -/
noncomputable def PoincareTexture.init (width height : ℤ) : PoincareTexture :=
  { width := width
    height := height
    circles := math
    textureData := RenderToTexture math width height }

/-- `PoincareTexture::increaseResolution`: adds the signed delta to both
stored dimensions (no clamp), re-renders, and hands the new grid to
`create`.  The circle vectors are not touched. -/
noncomputable def PoincareTexture.increaseResolution
    (t : PoincareTexture) (increaseBy : ℤ) : PoincareTexture :=
  { width := t.width + increaseBy
    height := t.height + increaseBy
    circles := t.circles
    textureData := RenderToTexture t.circles (t.width + increaseBy) (t.height + increaseBy) }

/-! ### Generic lemmas about the row-major grid structure -/

/-- Length of a direction-major / row-major double loop:
`H` outer iterations of `W` pushes each. -/
theorem length_flatMap_range {β : Type} (f : ℕ → ℕ → β) (W H : ℕ) :
    ((List.range H).flatMap fun i => (List.range W).map (f i)).length = H * W := by
  induction H with
  | zero => simp
  | succ n ih =>
      rw [List.range_succ, List.flatMap_append, List.length_append, ih]
      simp [Nat.succ_mul]

/-- Element `y * W + x` of the row-major double loop is `f y x`. -/
theorem getElem?_flatMap_range {β : Type} (f : ℕ → ℕ → β) {W H x y : ℕ}
    (hx : x < W) (hy : y < H) :
    ((List.range H).flatMap fun i => (List.range W).map (f i))[y * W + x]? =
      some (f y x) := by
  induction H with
  | zero => omega
  | succ n ih =>
      rw [List.range_succ, List.flatMap_append, List.getElem?_append]
      rcases Nat.lt_or_ge y n with hyn | hyn
      · have hlen : y * W + x <
            ((List.range n).flatMap fun i => (List.range W).map (f i)).length := by
          rw [length_flatMap_range]
          calc y * W + x < y * W + W := by omega
            _ = (y + 1) * W := by ring
            _ ≤ n * W := Nat.mul_le_mul_right W (by omega)
        rw [if_pos hlen]
        exact ih hyn
      · have hyeq : y = n := by omega
        subst hyeq
        have hlen : ¬ y * W + x <
            ((List.range y).flatMap fun i => (List.range W).map (f i)).length := by
          rw [length_flatMap_range]; omega
        rw [if_neg hlen, length_flatMap_range]
        have : y * W + x - y * W = x := by omega
        rw [this]
        simp only [List.flatMap_cons, List.flatMap_nil, List.append_nil,
          List.getElem?_map, List.getElem?_range hx]
        rfl

/-- Membership in the row-major double loop comes from some index pair. -/
theorem mem_flatMap_range {β : Type} (f : ℕ → ℕ → β) {W H : ℕ} {b : β}
    (hb : b ∈ (List.range H).flatMap fun i => (List.range W).map (f i)) :
    ∃ i j, i < H ∧ j < W ∧ b = f i j := by
  rcases List.mem_flatMap.mp hb with ⟨i, hi, hmem⟩
  rcases List.mem_map.mp hmem with ⟨j, hj, hfj⟩
  exact ⟨i, j, List.mem_range.mp hi, List.mem_range.mp hj, hfj.symm⟩

/-! ### The lattice points in closed form -/

/-- The point pushed by `calcH` at direction index `i` and distance index `j`
(hyperbolic distance `0.5 + j`). -/
noncomputable def latticePoint (i j : ℕ) : Vec3 :=
  calculateP (calculateIvv (calculateIv i) (0.5 + j)) (0.5 + j)

/-- `calcH` is the row-major table of `latticePoint`. -/
theorem calcH_eq :
    calcH = (List.range 9).flatMap fun i =>
      (List.range 6).map fun j => latticePoint i j := rfl

/-- Components of a lattice point, with `c = cosh d`, `s = sinh d`,
`θ = i·40·π/180`, `d = 0.5 + j`:
the point is `(cos θ · c·s, sin θ · c·s, c + s²)`. -/
theorem latticePoint_components (i j : ℕ) :
    latticePoint i j =
      ⟨Real.cos ((i * 40) * π / 180) * (Real.cosh (0.5 + j) * Real.sinh (0.5 + j)),
       Real.sin ((i * 40) * π / 180) * (Real.cosh (0.5 + j) * Real.sinh (0.5 + j)),
       Real.cosh (0.5 + j) + Real.sinh (0.5 + j) ^ 2⟩ := by
  simp only [latticePoint, calculateP, calculateIvv, calculateIv,
    add3_def, mul3_def, Vec3.mk.injEq]
  refine ⟨by ring, by ring, by ring⟩

/-! ### The projected disk points in closed form -/

/-- The disk point pushed by `calcP` for the lattice point `(i, j)`. -/
noncomputable def diskPoint (i j : ℕ) : Vec2 :=
  ⟨(latticePoint i j).x / calculateOszto (latticePoint i j),
   (latticePoint i j).y / calculateOszto (latticePoint i j)⟩

/-- `calcP calcH` is the row-major table of `diskPoint`. -/
theorem calcP_calcH_eq :
    calcP calcH = (List.range 9).flatMap fun i =>
      (List.range 6).map fun j => diskPoint i j := by
  simp only [calcP, calcH, List.map_flatMap, List.map_map]
  rfl

/-- The Euclidean norm of the `(i, j)` disk point:
`sinh d / (1 + cosh d)` with `d = 0.5 + j`. -/
noncomputable def diskRadius (j : ℕ) : ℝ :=
  Real.sinh (0.5 + j) / (1 + Real.cosh (0.5 + j))

/-- The lattice distances are positive. -/
theorem dist_pos (j : ℕ) : (0 : ℝ) < 0.5 + j := by positivity

/-- `diskRadius` is positive. -/
theorem diskRadius_pos (j : ℕ) : 0 < diskRadius j := by
  have hs : 0 < Real.sinh (0.5 + j) := Real.sinh_pos_iff.mpr (dist_pos j)
  have hc : 0 < Real.cosh (0.5 + j) := Real.cosh_pos _
  exact div_pos hs (by linarith)

/-- `diskRadius` is strictly below `1`. -/
theorem diskRadius_lt_one (j : ℕ) : diskRadius j < 1 := by
  have hsc : Real.sinh (0.5 + j) < Real.cosh (0.5 + j) := Real.sinh_lt_cosh _
  have hc : 0 < Real.cosh (0.5 + j) := Real.cosh_pos _
  rw [diskRadius, div_lt_one (by linarith)]
  linarith

/-- Closed form of the `(i, j)` disk point:
`(cos θ, sin θ)` scaled by `diskRadius j`. -/
theorem diskPoint_eq (i j : ℕ) :
    diskPoint i j =
      ⟨Real.cos ((i * 40) * π / 180) * diskRadius j,
       Real.sin ((i * 40) * π / 180) * diskRadius j⟩ := by
  have hs : Real.sinh (0.5 + (j : ℝ)) ^ 2 = Real.cosh (0.5 + (j : ℝ)) ^ 2 - 1 := by
    rw [Real.cosh_sq]; ring
  have hc : 0 < Real.cosh (0.5 + (j : ℝ)) := Real.cosh_pos _
  have hc1 : (0 : ℝ) < 1 + Real.cosh (0.5 + (j : ℝ)) := by linarith
  have hden : Real.cosh (0.5 + (j : ℝ)) + Real.sinh (0.5 + (j : ℝ)) ^ 2 + 1 =
      Real.cosh (0.5 + (j : ℝ)) * (1 + Real.cosh (0.5 + (j : ℝ))) := by
    rw [hs]; ring
  simp only [diskPoint, latticePoint_components, calculateOszto, diskRadius,
    Vec2.mk.injEq]
  rw [hden]
  constructor
  · field_simp
    ring
  · field_simp
    ring

/-- Squared norm of the `(i, j)` disk point is `diskRadius j ^ 2`. -/
theorem diskPoint_normSq (i j : ℕ) :
    (diskPoint i j).x ^ 2 + (diskPoint i j).y ^ 2 = diskRadius j ^ 2 := by
  rw [diskPoint_eq]
  have h := Real.sin_sq_add_cos_sq ((i * 40) * π / 180)
  linear_combination (diskRadius j ^ 2) * h

/-- Norm of the `(i, j)` disk point is `diskRadius j`. -/
theorem diskPoint_norm (i j : ℕ) :
    Real.sqrt ((diskPoint i j).x ^ 2 + (diskPoint i j).y ^ 2) = diskRadius j := by
  rw [diskPoint_normSq, Real.sqrt_sq (diskRadius_pos j).le]

/-! ### The constructed circles -/

/-- The circle pushed by `calcC` for the lattice point `(i, j)`. -/
noncomputable def latticeCircle (i j : ℕ) : Vec3 :=
  ⟨(diskPoint i j + normalize2 (diskPoint i j) * calculateR (diskPoint i j)).x,
   (diskPoint i j + normalize2 (diskPoint i j) * calculateR (diskPoint i j)).y,
   calculateR (diskPoint i j)⟩

/-- `math` (the built circle set) is the row-major table of `latticeCircle`. -/
theorem math_eq :
    math = (List.range 9).flatMap fun i =>
      (List.range 6).map fun j => latticeCircle i j := by
  simp only [math, calcC, calcP, calcH, List.map_flatMap, List.map_map]
  rfl

/-- There are 54 circles. -/
theorem math_length : math.length = 54 := by
  rw [math_eq, length_flatMap_range]

/-- Squared norm of a point displaced from `q` along `normalize2 q` by `t`,
when `q` has norm `r0 > 0`: it is `(r0 + t) ^ 2`. -/
theorem normSq_displaced (q : Vec2) (t r0 : ℝ)
    (hr : Real.sqrt (q.x ^ 2 + q.y ^ 2) = r0) (h0 : 0 < r0) :
    (q + normalize2 q * t).x ^ 2 + (q + normalize2 q * t).y ^ 2 = (r0 + t) ^ 2 := by
  have hq2 : q.x ^ 2 + q.y ^ 2 = r0 ^ 2 := by
    rw [← hr]; exact (Real.sq_sqrt (by positivity)).symm
  have hlen : length2 q = r0 := by
    rw [length2, dot2, show q.x * q.x + q.y * q.y = q.x ^ 2 + q.y ^ 2 from by ring]
    exact hr
  simp only [normalize2, mul2_def, add2_def, hlen]
  field_simp
  linear_combination ((r0 + t) ^ 2) * hq2

/-- The chosen radius value satisfies `(r0 + g) ^ 2 = 1 + g ^ 2` where
`g = calculateR q` and `r0 = ‖q‖ > 0`. -/
theorem radius_identity (q : Vec2) (r0 : ℝ)
    (hr : Real.sqrt (q.x ^ 2 + q.y ^ 2) = r0) (h0 : 0 < r0) :
    (r0 + calculateR q) ^ 2 = 1 + calculateR q ^ 2 := by
  rw [calculateR, hr]
  field_simp
  ring

/-- Orthogonality of the `(i, j)` circle to the unit circle:
`‖center‖² = 1 + radius²`. -/
theorem latticeCircle_normSq (i j : ℕ) :
    (latticeCircle i j).x ^ 2 + (latticeCircle i j).y ^ 2 =
      1 + (latticeCircle i j).z ^ 2 := by
  have h1 := normSq_displaced (diskPoint i j) (calculateR (diskPoint i j))
    (diskRadius j) (diskPoint_norm i j) (diskRadius_pos j)
  have h2 := radius_identity (diskPoint i j) (diskRadius j)
    (diskPoint_norm i j) (diskRadius_pos j)
  simp only [latticeCircle]
  rw [h1, h2]

/-! ### The origin is contained in no constructed circle -/

/-- Distance from the origin to a circle's center is the center's norm. -/
theorem calculateDistance_origin (c : Vec3) :
    calculateDistance ⟨0, 0⟩ c = Real.sqrt (c.x ^ 2 + c.y ^ 2) := by
  rw [calculateDistance]
  congr 1
  ring

/-- `g < √(1 + g²)` for every real `g`. -/
theorem lt_sqrt_one_add_sq (g : ℝ) : g < Real.sqrt (1 + g ^ 2) := by
  rcases le_or_lt g 0 with hg | hg
  · have h1 : (1 : ℝ) = Real.sqrt 1 := Real.sqrt_one.symm
    have h2 : Real.sqrt 1 ≤ Real.sqrt (1 + g ^ 2) :=
      Real.sqrt_le_sqrt (by nlinarith)
    linarith [Real.sqrt_one ▸ h2]
  · have h1 : Real.sqrt (g ^ 2) < Real.sqrt (1 + g ^ 2) :=
      Real.sqrt_lt_sqrt (by positivity) (by linarith)
    rwa [Real.sqrt_sq hg.le] at h1

/-- The origin is not inside the `(i, j)` circle. -/
theorem origin_not_in_latticeCircle (i j : ℕ) :
    ¬ calculateDistance ⟨0, 0⟩ (latticeCircle i j) ≤ (latticeCircle i j).z := by
  rw [calculateDistance_origin, latticeCircle_normSq]
  exact not_le.mpr (lt_sqrt_one_add_sq _)

/-- `countCircles` is zero when no circle of the list contains the point. -/
theorem countCircles_eq_zero {point : Vec2} :
    ∀ {l : List Vec3}, (∀ c ∈ l, ¬ calculateDistance point c ≤ c.z) →
      countCircles point l = 0
  | [], _ => rfl
  | c :: rest, h => by
      rw [countCircles, if_neg (h c (List.mem_cons_self c rest)),
        countCircles_eq_zero fun d hd => h d (List.mem_cons_of_mem c hd)]

/-- Every built circle is a `latticeCircle i j` with `i < 9`, `j < 6`. -/
theorem mem_math {c : Vec3} (hc : c ∈ math) :
    ∃ i j, i < 9 ∧ j < 6 ∧ c = latticeCircle i j := by
  rw [math_eq] at hc
  exact mem_flatMap_range _ hc

/-- No circle of the built set contains the origin. -/
theorem countCircles_math_origin : countCircles ⟨0, 0⟩ math = 0 := by
  refine countCircles_eq_zero fun c hc => ?_
  obtain ⟨i, j, _, _, rfl⟩ := mem_math hc
  exact origin_not_in_latticeCircle i j

/-! ### The rendered grid in closed form -/

/-- The color the rasterization loop pushes at pixel `(xC, yC)`. -/
noncomputable def pixelColor (circles : List Vec3) (textureWidth : ℤ)
    (yC xC : ℕ) : Vec4 :=
  let x : ℝ := (xC : ℝ) / (textureWidth : ℝ) * 2 - 1
  let y : ℝ := (yC : ℝ) / (textureWidth : ℝ) * 2 - 1
  let count := manyCircles circles ⟨x, y⟩
  if Real.sqrt (x ^ 2 + y ^ 2) > 1 then ⟨0, 0, 0, 1⟩
  else if count % 2 = 0 then ⟨1, 1, 0, 1⟩
  else ⟨0, 0, 1, 1⟩

/-- `RenderToTexture` is the row-major table of `pixelColor`. -/
theorem RenderToTexture_eq (circles : List Vec3) (W H : ℤ) :
    RenderToTexture circles W H =
      (List.range H.toNat).flatMap fun yC =>
        (List.range W.toNat).map fun xC => pixelColor circles W yC xC := by
  unfold RenderToTexture pixelColor
  rfl

/-- The grid has `H.toNat * W.toNat` entries. -/
theorem RenderToTexture_length (circles : List Vec3) (W H : ℤ) :
    (RenderToTexture circles W H).length = H.toNat * W.toNat := by
  rw [RenderToTexture_eq, length_flatMap_range]

/-- Entry `y * W + x` of the grid is `pixelColor circles W y x`. -/
theorem RenderToTexture_getElem (circles : List Vec3) (W H : ℤ) {x y : ℕ}
    (hx : x < W.toNat) (hy : y < H.toNat) :
    (RenderToTexture circles W H)[y * W.toNat + x]? =
      some (pixelColor circles W y x) := by
  rw [RenderToTexture_eq]
  exact getElem?_flatMap_range _ hx hy

/-! ### Claim theorems -/

/-- **C1.** For every pixel `(xc, yc)` of a `W×H` render, the synthesizer
maps it to `x = xc/W·2−1` and `y = yc/W·2−1` (both axes divided by the
width `W`), and colors it by priority: outside the unit circle black
`(0,0,0,1)`, even containment count yellow `(1,1,0,1)`, odd count blue
`(0,0,1,1)`; the grid is row-major with `W·H` entries. -/
theorem c1_pixel_grid (circles : List Vec3) (W H xc yc : ℕ)
    (hx : xc < W) (hy : yc < H) :
    (RenderToTexture circles W H).length = W * H ∧
    (RenderToTexture circles W H)[yc * W + xc]? =
      some (let x : ℝ := (xc : ℝ) / (W : ℝ) * 2 - 1
            let y : ℝ := (yc : ℝ) / (W : ℝ) * 2 - 1
            if Real.sqrt (x ^ 2 + y ^ 2) > 1 then ⟨0, 0, 0, 1⟩
            else if countCircles ⟨x, y⟩ circles % 2 = 0 then ⟨1, 1, 0, 1⟩
            else ⟨0, 0, 1, 1⟩) := by
  have hWn : ((W : ℤ)).toNat = W := Int.toNat_natCast W
  have hHn : ((H : ℤ)).toNat = H := Int.toNat_natCast H
  constructor
  · rw [RenderToTexture_length, hWn, hHn, Nat.mul_comm]
  · have hx' : xc < ((W : ℤ)).toNat := by rwa [hWn]
    have hy' : yc < ((H : ℤ)).toNat := by rwa [hHn]
    have := RenderToTexture_getElem circles W H hx' hy'
    rw [hWn] at this
    rw [this]
    simp only [pixelColor, manyCircles, Int.cast_natCast]

/-- **C1 witness**: an instance at `W = H = 1`, `xc = yc = 0` with no circles. -/
theorem c1_pixel_grid_witness :
    (RenderToTexture [] 1 1).length = 1 * 1 ∧
    (RenderToTexture [] 1 1)[0 * 1 + 0]? =
      some (let x : ℝ := ((0 : ℕ) : ℝ) / ((1 : ℕ) : ℝ) * 2 - 1
            let y : ℝ := ((0 : ℕ) : ℝ) / ((1 : ℕ) : ℝ) * 2 - 1
            if Real.sqrt (x ^ 2 + y ^ 2) > 1 then ⟨0, 0, 0, 1⟩
            else if countCircles ⟨x, y⟩ [] % 2 = 0 then ⟨1, 1, 0, 1⟩
            else ⟨0, 0, 1, 1⟩) :=
  c1_pixel_grid [] 1 1 0 0 (by decide) (by decide)

/-- **C2.** The lattice generator produces exactly 54 points in
direction-major, distance-minor order; the point for direction `i` and
distance `d = 0.5 + j` is `(0,0,1)·cosh d + ivv·sinh d` with
`ivv = (0,0,1)·sinh d + iv·cosh d` and `iv = (cos(i·40°), sin(i·40°), 0)`. -/
theorem c2_lattice (i j : ℕ) (hi : i < 9) (hj : j < 6) :
    calcH.length = 54 ∧
    calcH[6 * i + j]? =
      some ((⟨0, 0, 1⟩ : Vec3) * Real.cosh (0.5 + j) +
        ((⟨0, 0, 1⟩ : Vec3) * Real.sinh (0.5 + j) +
          (⟨Real.cos ((i * 40) * π / 180), Real.sin ((i * 40) * π / 180), 0⟩ : Vec3) *
            Real.cosh (0.5 + j)) * Real.sinh (0.5 + j)) := by
  constructor
  · rw [calcH_eq, length_flatMap_range]
  · rw [calcH_eq, Nat.mul_comm 6 i]
    exact getElem?_flatMap_range _ hj hi

/-- **C2 witness**: the instance `i = 0`, `j = 0`. -/
theorem c2_lattice_witness :
    calcH.length = 54 ∧
    calcH[6 * 0 + 0]? =
      some ((⟨0, 0, 1⟩ : Vec3) * Real.cosh (0.5 + (0 : ℕ)) +
        ((⟨0, 0, 1⟩ : Vec3) * Real.sinh (0.5 + (0 : ℕ)) +
          (⟨Real.cos (((0 : ℕ) * 40) * π / 180), Real.sin (((0 : ℕ) * 40) * π / 180), 0⟩ : Vec3) *
            Real.cosh (0.5 + (0 : ℕ))) * Real.sinh (0.5 + (0 : ℕ))) :=
  c2_lattice 0 0 (by decide) (by decide)

/-- **C10.** With zero or negative stored width or height (reachable since
`increaseResolution` applies its signed delta with no clamp),
`RenderToTexture` returns the empty grid, of length `0`. -/
theorem c10_nonpositive_resolution (circles : List Vec3) (W H : ℤ)
    (h : W ≤ 0 ∨ H ≤ 0) :
    RenderToTexture circles W H = [] ∧ (RenderToTexture circles W H).length = 0 := by
  have hnil : RenderToTexture circles W H = [] := by
    rw [RenderToTexture_eq]
    rcases h with hW | hH
    · rw [Int.toNat_eq_zero.mpr hW]
      exact List.flatMap_eq_nil_iff.mpr fun x _ => by simp
    · rw [Int.toNat_eq_zero.mpr hH]
      simp
  exact ⟨hnil, by rw [hnil]; rfl⟩

/-- **C10 witness**: width `-100` (after four decrease steps from 300),
height `300`. -/
theorem c10_nonpositive_resolution_witness :
    RenderToTexture math (-100) 300 = [] ∧
    (RenderToTexture math (-100) 300).length = 0 :=
  c10_nonpositive_resolution math (-100) 300 (Or.inl (by decide))

/-- **C3 counterexample.** The very first generated point (direction 0,
distance 0.5) misses the hyperboloid constraint `x² + y² = z² − 1` by more
than `1/2`, far beyond any floating-point tolerance. -/
theorem c3_counterexample :
    calcH[0]? = some (latticePoint 0 0) ∧
    (1 / 2 : ℝ) <
      (latticePoint 0 0).z ^ 2 - 1 -
        ((latticePoint 0 0).x ^ 2 + (latticePoint 0 0).y ^ 2) := by
  constructor
  · rw [calcH_eq]
    have h0 := getElem?_flatMap_range (fun i j => latticePoint i j)
      (show 0 < 6 by norm_num) (show 0 < 9 by norm_num)
    simpa using h0
  · have hθ : (((0 : ℕ) : ℝ) * 40) * π / 180 = 0 := by norm_num
    have hd : (0.5 : ℝ) + ((0 : ℕ) : ℝ) = 0.5 := by norm_num
    rw [latticePoint_components, hθ, hd, Real.cos_zero, Real.sin_zero]
    have hcs : Real.cosh (0.5 : ℝ) ^ 2 = Real.sinh (0.5 : ℝ) ^ 2 + 1 :=
      Real.cosh_sq 0.5
    have hc : 1 ≤ Real.cosh (0.5 : ℝ) := Real.one_le_cosh 0.5
    have hs : (0.5 : ℝ) < Real.sinh 0.5 :=
      Real.self_lt_sinh_iff.mpr (by norm_num)
    have key : (Real.cosh (0.5 : ℝ) + Real.sinh (0.5 : ℝ) ^ 2) ^ 2 - 1 -
        ((1 * (Real.cosh (0.5 : ℝ) * Real.sinh (0.5 : ℝ))) ^ 2 +
          (0 * (Real.cosh (0.5 : ℝ) * Real.sinh (0.5 : ℝ))) ^ 2) =
        2 * Real.cosh (0.5 : ℝ) * Real.sinh (0.5 : ℝ) ^ 2 := by
      linear_combination (1 - Real.sinh (0.5 : ℝ) ^ 2) * hcs
    rw [key]
    nlinarith [hc, hs, sq_nonneg (Real.sinh (0.5 : ℝ) - 1 / 2)]

/-- **C3 (amended).** Every lattice point satisfies `z ≥ cosh 0.5 > 1`, but
not the hyperboloid constraint: instead, exactly
`z² − (x² + y²) = 1 + 2·cosh d·sinh² d` with `d = 0.5 + j`. -/
theorem c3_point_invariants (i j : ℕ) (hi : i < 9) (hj : j < 6) :
    calcH[6 * i + j]? = some (latticePoint i j) ∧
    1 < Real.cosh (0.5 : ℝ) ∧
    Real.cosh (0.5 : ℝ) ≤ (latticePoint i j).z ∧
    (latticePoint i j).z ^ 2 - ((latticePoint i j).x ^ 2 + (latticePoint i j).y ^ 2) =
      1 + 2 * Real.cosh (0.5 + j) * Real.sinh (0.5 + j) ^ 2 := by
  refine ⟨?_, ?_, ?_, ?_⟩
  · rw [calcH_eq, Nat.mul_comm 6 i]
    exact getElem?_flatMap_range _ hj hi
  · exact Real.one_lt_cosh.mpr (by norm_num)
  · rw [latticePoint_components]
    have h1 : Real.cosh (0.5 : ℝ) ≤ Real.cosh (0.5 + (j : ℝ)) := by
      rw [Real.cosh_le_cosh]
      rw [abs_of_pos (by norm_num : (0 : ℝ) < 0.5), abs_of_pos (dist_pos j)]
      have : (0 : ℝ) ≤ (j : ℝ) := Nat.cast_nonneg j
      linarith
    have h2 : (0 : ℝ) ≤ Real.sinh (0.5 + (j : ℝ)) ^ 2 := sq_nonneg _
    simp only
    linarith
  · rw [latticePoint_components]
    have hcs : Real.cosh (0.5 + (j : ℝ)) ^ 2 = Real.sinh (0.5 + (j : ℝ)) ^ 2 + 1 :=
      Real.cosh_sq _
    have hsc := Real.sin_sq_add_cos_sq (((i : ℝ) * 40) * π / 180)
    simp only
    linear_combination (1 - Real.sinh (0.5 + (j : ℝ)) ^ 2) * hcs -
      (Real.cosh (0.5 + (j : ℝ)) * Real.sinh (0.5 + (j : ℝ))) ^ 2 * hsc

/-- **C3 (amended) witness**: the instance `i = 0`, `j = 0`. -/
theorem c3_point_invariants_witness :
    calcH[6 * 0 + 0]? = some (latticePoint 0 0) ∧
    1 < Real.cosh (0.5 : ℝ) ∧
    Real.cosh (0.5 : ℝ) ≤ (latticePoint 0 0).z ∧
    (latticePoint 0 0).z ^ 2 - ((latticePoint 0 0).x ^ 2 + (latticePoint 0 0).y ^ 2) =
      1 + 2 * Real.cosh (0.5 + (0 : ℕ)) * Real.sinh (0.5 + (0 : ℕ)) ^ 2 :=
  c3_point_invariants 0 0 (by decide) (by decide)

/-- **C4.** The disk projector maps each hyperboloid point `(x, y, z)` to
`(x/(z+1), y/(z+1))`, one output per input, in input order. -/
theorem c4_projection (hyperbolicPoints : List Vec3) :
    (calcP hyperbolicPoints).length = hyperbolicPoints.length ∧
    ∀ k : ℕ, (calcP hyperbolicPoints)[k]? =
      Option.map (fun p : Vec3 => (⟨p.x / (p.z + 1), p.y / (p.z + 1)⟩ : Vec2))
        hyperbolicPoints[k]? := by
  refine ⟨List.length_map _ _, fun k => ?_⟩
  rw [calcP, List.getElem?_map]
  rfl

/-- **C5.** Every disk point obtained by projecting a lattice point lies in
the open unit disk. -/
theorem c5_in_unit_disk (q : Vec2) (hq : q ∈ calcP calcH) :
    Real.sqrt (q.x ^ 2 + q.y ^ 2) < 1 := by
  rw [calcP_calcH_eq] at hq
  obtain ⟨i, j, _, _, rfl⟩ := mem_flatMap_range _ hq
  rw [diskPoint_norm]
  exact diskRadius_lt_one j

/-- **C5 witness**: the projected point of direction 0 at distance 0.5. -/
theorem c5_in_unit_disk_witness :
    Real.sqrt ((diskPoint 0 0).x ^ 2 + (diskPoint 0 0).y ^ 2) < 1 :=
  c5_in_unit_disk (diskPoint 0 0)
    (by
      rw [calcP_calcH_eq]
      exact List.mem_flatMap.mpr
        ⟨0, List.mem_range.mpr (by norm_num),
          List.mem_map.mpr ⟨0, List.mem_range.mpr (by norm_num), rfl⟩⟩)

/-- **C6.** For every disk point `q` with `r = ‖q‖ ≠ 0`, the geodesic
builder computes `g = (1/r − r)/2` and stores the circle with center
`q + normalize(q)·g` and third component `g` (no absolute value), one
circle per point, in input order. -/
theorem c6_geodesic_builder (poincarePoints : List Vec2)
    (h : ∀ q ∈ poincarePoints, Real.sqrt (q.x ^ 2 + q.y ^ 2) ≠ 0) :
    (calcC poincarePoints).length = poincarePoints.length ∧
    ∀ k : ℕ, (calcC poincarePoints)[k]? =
      Option.map (fun q : Vec2 =>
        (⟨(q + normalize2 q *
              ((1 / Real.sqrt (q.x ^ 2 + q.y ^ 2) - Real.sqrt (q.x ^ 2 + q.y ^ 2)) / 2)).x,
          (q + normalize2 q *
              ((1 / Real.sqrt (q.x ^ 2 + q.y ^ 2) - Real.sqrt (q.x ^ 2 + q.y ^ 2)) / 2)).y,
          (1 / Real.sqrt (q.x ^ 2 + q.y ^ 2) - Real.sqrt (q.x ^ 2 + q.y ^ 2)) / 2⟩ : Vec3))
        poincarePoints[k]? := by
  refine ⟨List.length_map _ _, fun k => ?_⟩
  rw [calcC, List.getElem?_map]
  rfl

/-- **C6 witness**: the singleton input `[(1, 0)]`. -/
theorem c6_geodesic_builder_witness :
    (calcC [⟨1, 0⟩]).length = [(⟨1, 0⟩ : Vec2)].length ∧
    ∀ k : ℕ, (calcC [⟨1, 0⟩])[k]? =
      Option.map (fun q : Vec2 =>
        (⟨(q + normalize2 q *
              ((1 / Real.sqrt (q.x ^ 2 + q.y ^ 2) - Real.sqrt (q.x ^ 2 + q.y ^ 2)) / 2)).x,
          (q + normalize2 q *
              ((1 / Real.sqrt (q.x ^ 2 + q.y ^ 2) - Real.sqrt (q.x ^ 2 + q.y ^ 2)) / 2)).y,
          (1 / Real.sqrt (q.x ^ 2 + q.y ^ 2) - Real.sqrt (q.x ^ 2 + q.y ^ 2)) / 2⟩ : Vec3))
        [(⟨1, 0⟩ : Vec2)][k]? :=
  c6_geodesic_builder [⟨1, 0⟩] (by simp)

/-- **C7.** Every circle built from a lattice-derived disk point is
orthogonal to the unit circle: `‖center‖² = 1 + radius²`, here exactly. -/
theorem c7_orthogonal (c : Vec3) (hc : c ∈ calcC (calcP calcH)) :
    c.x ^ 2 + c.y ^ 2 = 1 + c.z ^ 2 := by
  have hm : c ∈ math := hc
  obtain ⟨i, j, _, _, rfl⟩ := mem_math hm
  exact latticeCircle_normSq i j

/-- **C7 witness**: the circle of direction 0 at distance 0.5. -/
theorem c7_orthogonal_witness :
    (latticeCircle 0 0).x ^ 2 + (latticeCircle 0 0).y ^ 2 =
      1 + (latticeCircle 0 0).z ^ 2 :=
  c7_orthogonal (latticeCircle 0 0)
    (by
      show latticeCircle 0 0 ∈ math
      rw [math_eq]
      exact List.mem_flatMap.mpr
        ⟨0, List.mem_range.mpr (by norm_num),
          List.mem_map.mpr ⟨0, List.mem_range.mpr (by norm_num), rfl⟩⟩)

/-- **C8.** In a 300×300 generation, pixel `(150, 150)` maps to the
normalized coordinate `(0, 0)`; the origin lies inside the unit disk, is
contained in none of the 54 circles, and gets the color `(1, 1, 0, 1)`. -/
theorem c8_center_pixel :
    math.length = 54 ∧
    ((150 : ℝ) / 300 * 2 - 1 = 0) ∧
    Real.sqrt ((0 : ℝ) ^ 2 + 0 ^ 2) ≤ 1 ∧
    countCircles ⟨0, 0⟩ math = 0 ∧
    (RenderToTexture math 300 300)[150 * 300 + 150]? = some ⟨1, 1, 0, 1⟩ := by
  refine ⟨math_length, by norm_num, by norm_num [Real.sqrt_zero],
    countCircles_math_origin, ?_⟩
  have hx : (150 : ℕ) < ((300 : ℤ)).toNat := by decide
  have hg := RenderToTexture_getElem math 300 300 hx hx
  have htn : ((300 : ℤ)).toNat = 300 := rfl
  rw [htn] at hg
  rw [hg]
  have h0 : ((150 : ℕ) : ℝ) / ((300 : ℤ) : ℝ) * 2 - 1 = 0 := by norm_num
  simp only [pixelColor, manyCircles, h0]
  norm_num [Real.sqrt_zero, countCircles_math_origin]

/-- **C9.** A resolution change applies the signed delta to both
dimensions, leaves the circle set equal to the freshly built set, and
fully replaces the grid: the new grid equals the one a from-scratch
construction at the new dimensions produces, with exactly
`newHeight·newWidth` pixels. -/
theorem c9_regenerate (t : PoincareTexture) (d : ℤ) (h : t.circles = math) :
    (t.increaseResolution d).width = t.width + d ∧
    (t.increaseResolution d).height = t.height + d ∧
    (t.increaseResolution d).circles = math ∧
    (t.increaseResolution d).textureData =
      (PoincareTexture.init (t.width + d) (t.height + d)).textureData ∧
    (t.increaseResolution d).textureData.length =
      (t.height + d).toNat * (t.width + d).toNat := by
  refine ⟨rfl, rfl, h, ?_, ?_⟩
  · simp only [PoincareTexture.increaseResolution, PoincareTexture.init, h]
  · simp only [PoincareTexture.increaseResolution, RenderToTexture_length]

/-- **C9 witness**: `generate(300, 300)` followed by a `+100` step. -/
theorem c9_regenerate_witness :
    ((PoincareTexture.init 300 300).increaseResolution 100).width =
      (PoincareTexture.init 300 300).width + 100 ∧
    ((PoincareTexture.init 300 300).increaseResolution 100).height =
      (PoincareTexture.init 300 300).height + 100 ∧
    ((PoincareTexture.init 300 300).increaseResolution 100).circles = math ∧
    ((PoincareTexture.init 300 300).increaseResolution 100).textureData =
      (PoincareTexture.init ((PoincareTexture.init 300 300).width + 100)
        ((PoincareTexture.init 300 300).height + 100)).textureData ∧
    ((PoincareTexture.init 300 300).increaseResolution 100).textureData.length =
      ((PoincareTexture.init 300 300).height + 100).toNat *
        ((PoincareTexture.init 300 300).width + 100).toNat :=
  c9_regenerate (PoincareTexture.init 300 300) 100 rfl

end CircleLimit
